import Mathlib

/-!
Shallow embedding of the `communitygraph` repository (files `bipartite.py`
and `util.py`) and proofs about it.

The dataframe handed to `BipartiteCommunity.__init__` is modelled as a list
of rows, each row being the pair of the `user_key` column value and the
`item_key` column value.  Entity identifiers are modelled as `Nat`.
Degree thresholds are Python `Optional[int]` values, modelled as
`Option Int`; Python truthiness (`None` and `0` are falsy) is made explicit.
Exceptions are modelled with `Except`.
-/

namespace CommunityGraph

/-- Row count of a given value in the user column: `df[user_key].value_counts()`
and also `Counter(df[user_key])` of `bipartite.py`. -/
def userCount (df : List (Nat × Nat)) (u : Nat) : Nat :=
  (df.map Prod.fst).count u

/-- Row count of a given value in the item column: `df[item_key].value_counts()`
and also `Counter(df[item_key])` of `bipartite.py`. -/
def itemCount (df : List (Nat × Nat)) (i : Nat) : Nat :=
  (df.map Prod.snd).count i

/-- Distinct values of the user column, `set(df[user_key])`. -/
def usersOf (df : List (Nat × Nat)) : Finset Nat :=
  (df.map Prod.fst).toFinset

/-- Distinct values of the item column, `set(df[item_key])`. -/
def itemsOf (df : List (Nat × Nat)) : Finset Nat :=
  (df.map Prod.snd).toFinset

/-- Node set of the networkx graph built in `__init__`: the keys of
`user_degree` together with the keys of `item_degree` (networkx merges a
value that occurs in both columns into a single node). -/
def nodesOf (df : List (Nat × Nat)) : Finset Nat :=
  usersOf df ∪ itemsOf df

/-- Python truthiness of an `Optional[int]`: `None` and `0` are falsy. -/
def truthy : Option Int → Bool
  | none => false
  | some n => n != 0

/-- Step 2 of `BipartiteCommunity.__init__` (`bipartite.py` lines 49-60):
the mutual-exclusivity check and the single degree filter, returning the
filtered dataframe.  `if min_user_degree and min_item_degree` raises,
`elif min_user_degree` keeps rows whose user value has raw frequency at
least the threshold, `elif min_item_degree` does the same on the item
column.  Frequencies are counted over the unfiltered dataframe. -/
def buildDf (df : List (Nat × Nat)) (minUser minItem : Option Int) :
    Except String (List (Nat × Nat)) :=
  if truthy minUser && truthy minItem then
    Except.error "See docstring: Illegal settings"
  else if truthy minUser then
    Except.ok (df.filter (fun e => minUser.getD 0 ≤ (userCount df e.1 : Int)))
  else if truthy minItem then
    Except.ok (df.filter (fun e => minItem.getD 0 ≤ (itemCount df e.2 : Int)))
  else
    Except.ok df

/-- A call of the constructor that omits `min_item_degree`: the declared
default of that parameter is `10` (not `None`), and the default of
`min_user_degree` is `None`. -/
def buildDfDefault (df : List (Nat × Nat)) (minUser : Option Int := none) :
    Except String (List (Nat × Nat)) :=
  buildDf df minUser (some 10)

end CommunityGraph

namespace CommunityGraph

/-- The claim of C1 fails when one of the two supplied thresholds is `0`:
the exclusivity check tests truthiness, so supplying `min_user_degree=0`
together with `min_item_degree=1` raises nothing and returns a graph. -/
theorem buildDf_zero_pair_no_error :
    buildDf [(0, 1)] (some 0) (some 1) = Except.ok [(0, 1)] ∧
      ∀ msg, buildDf [(0, 1)] (some 0) (some 1) ≠ Except.error msg := by
  refine ⟨rfl, ?_⟩
  intro msg h
  rw [show buildDf [(0, 1)] (some 0) (some 1) = Except.ok [(0, 1)] from rfl] at h
  exact Except.noConfusion h

/-- C1 (amended): whenever both supplied thresholds are truthy (nonzero),
the constructor raises the configuration error and returns no filtered
dataframe, hence builds no graph. -/
theorem buildDf_both_truthy_error (df : List (Nat × Nat))
    (minUser minItem : Option Int)
    (hu : truthy minUser = true) (hi : truthy minItem = true) :
    buildDf df minUser minItem = Except.error "See docstring: Illegal settings" := by
  simp [buildDf, hu, hi]

/-- Witness for C1's amended theorem at a concrete input. -/
theorem buildDf_both_truthy_error_witness :
    buildDf [(1, 2)] (some 2) (some 3) =
      Except.error "See docstring: Illegal settings" :=
  buildDf_both_truthy_error [(1, 2)] (some 2) (some 3) (by decide) (by decide)

/-- C2: a call omitting `min_item_degree` uses the default threshold `10`;
with no user threshold the item filter is applied with threshold `10`, so
every surviving row's item value has raw frequency at least `10`, and
supplying only a positive `min_user_degree` (leaving the item default in
place) triggers the mutual-exclusivity error. -/
theorem buildDfDefault_spec (df : List (Nat × Nat)) :
    buildDfDefault df none =
        Except.ok (df.filter (fun e => (10 : Int) ≤ (itemCount df e.2 : Int))) ∧
      (∀ out, buildDfDefault df none = Except.ok out →
        ∀ e ∈ out, (10 : Int) ≤ (itemCount df e.2 : Int)) ∧
      ∀ t : Int, 0 < t →
        buildDfDefault df (some t) =
          Except.error "See docstring: Illegal settings" := by
  have h1 : buildDfDefault df none =
      Except.ok (df.filter (fun e => (10 : Int) ≤ (itemCount df e.2 : Int))) := rfl
  refine ⟨h1, ?_, ?_⟩
  · intro out hout e he
    rw [h1] at hout
    have h : df.filter (fun e => (10 : Int) ≤ (itemCount df e.2 : Int)) = out :=
      Except.ok.inj hout
    subst h
    have := List.of_mem_filter he
    simpa using this
  · intro t ht
    have htr : truthy (some t) = true := by
      simp only [truthy, bne_iff_ne, ne_eq, decide_eq_true_eq]
      omega
    exact buildDf_both_truthy_error df (some t) (some 10) htr (by decide)

/-- Witness for C2 at a concrete input: the default-constructed community on
a single-row dataframe filters the item (frequency 1 < 10) away, and a call
with only `min_user_degree = 3` supplied errors out. -/
theorem buildDfDefault_spec_witness :
    buildDfDefault [(5, 7)] none = Except.ok [] ∧
      buildDfDefault [(5, 7)] (some 3) =
        Except.error "See docstring: Illegal settings" := by
  have h := buildDfDefault_spec [(5, 7)]
  refine ⟨?_, h.2.2 3 (by decide)⟩
  have h1 := h.1
  simpa using h1

/-- C4: with a single threshold set (the other `None`), the filter is one
pass over the dataframe: raw frequencies are computed on the unfiltered
rows, and exactly the rows whose filtered-side value reaches the threshold
survive; the opposite side is not re-filtered.  The concrete scenario of
the spec is included: on `[(u1,i1),(u1,i1),(u1,i2),(u2,i1)]` with item
threshold `2`, item `i2` (frequency 1) is dropped. -/
theorem buildDf_single_pass :
    (∀ (df : List (Nat × Nat)) (t : Int),
        buildDf df (some t) none =
          Except.ok (df.filter (fun e => t ≤ (userCount df e.1 : Int)))) ∧
      (∀ (df : List (Nat × Nat)) (t : Int),
        buildDf df none (some t) =
          Except.ok (df.filter (fun e => t ≤ (itemCount df e.2 : Int)))) ∧
      buildDf [(1, 11), (1, 11), (1, 12), (2, 11)] none (some 2) =
        Except.ok [(1, 11), (1, 11), (2, 11)] := by
  refine ⟨?_, ?_, rfl⟩
  · intro df t
    by_cases h : t = 0
    · subst h
      have h0 : df.filter (fun e => (0 : Int) ≤ (userCount df e.1 : Int)) = df :=
        List.filter_eq_self.2 (by intro e _; simp)
      rw [show buildDf df (some 0) none = Except.ok df from rfl, h0]
    · unfold buildDf
      rw [show truthy (some t) = true from by simp [truthy, h]]
      rfl
  · intro df t
    by_cases h : t = 0
    · subst h
      have h0 : df.filter (fun e => (0 : Int) ≤ (itemCount df e.2 : Int)) = df :=
        List.filter_eq_self.2 (by intro e _; simp)
      rw [show buildDf df none (some 0) = Except.ok df from rfl, h0]
    · unfold buildDf
      rw [show truthy (some t) = true from by simp [truthy, h]]
      rfl

/-- C10: a threshold equal to `0` behaves exactly as an absent threshold:
the branch tests truthiness, so the zero filter is skipped and the
mutual-exclusivity error is not raised even when the other threshold is
set; a result is still produced. -/
theorem buildDf_zero_is_absent (df : List (Nat × Nat)) :
    (∀ minItem, buildDf df (some 0) minItem = buildDf df none minItem) ∧
      (∀ minUser, buildDf df minUser (some 0) = buildDf df minUser none) ∧
      (∀ t : Int, ∃ out, buildDf df (some 0) (some t) = Except.ok out) ∧
      ∀ t : Int, ∃ out, buildDf df (some t) (some 0) = Except.ok out := by
  refine ⟨fun _ => rfl, ?_, ?_, ?_⟩
  · intro minUser
    cases minUser with
    | none => rfl
    | some n =>
      by_cases h : n = 0
      · rw [h]
        rfl
      · unfold buildDf
        rw [show truthy (some n) = true from by simp [truthy, h]]
        rfl
  · intro t
    by_cases h : t = 0
    · exact ⟨df, by rw [h]; rfl⟩
    · refine ⟨df.filter (fun e => t ≤ (itemCount df e.2 : Int)), ?_⟩
      unfold buildDf
      rw [show truthy (some t) = true from by simp [truthy, h]]
      rfl
  · intro t
    by_cases h : t = 0
    · exact ⟨df, by rw [h]; rfl⟩
    · refine ⟨df.filter (fun e => t ≤ (userCount df e.1 : Int)), ?_⟩
      unfold buildDf
      rw [show truthy (some t) = true from by simp [truthy, h]]
      rfl

end CommunityGraph

namespace CommunityGraph

/-- Sum of the values of a `Counter` over a list is the list's length. -/
theorem sum_count_toFinset (l : List Nat) :
    ∑ a ∈ l.toFinset, l.count a = l.length := by
  simp

/-- C5: for every successfully built community, the recorded user degrees
(`self.user_degree = Counter(df[user_key])`) sum to the number of rows of
the filtered dataframe, and so do the recorded item degrees: both equal the
number of filtered edges counted with multiplicity. -/
theorem buildDf_degree_sum (df : List (Nat × Nat)) (minUser minItem : Option Int)
    (out : List (Nat × Nat)) (_hbuild : buildDf df minUser minItem = Except.ok out) :
    (∑ u ∈ usersOf out, userCount out u) = out.length ∧
      (∑ i ∈ itemsOf out, itemCount out i) = out.length := by
  constructor
  · rw [usersOf, show (fun u => userCount out u) = fun u => (out.map Prod.fst).count u from rfl,
      sum_count_toFinset, List.length_map]
  · rw [itemsOf, show (fun i => itemCount out i) = fun i => (out.map Prod.snd).count i from rfl,
      sum_count_toFinset, List.length_map]

/-- Witness for C5 on the three-row dataframe `[(1,2),(1,2),(3,2)]`. -/
theorem buildDf_degree_sum_witness :
    (∑ u ∈ usersOf [(1, 2), (1, 2), (3, 2)], userCount [(1, 2), (1, 2), (3, 2)] u) = 3 ∧
      (∑ i ∈ itemsOf [(1, 2), (1, 2), (3, 2)], itemCount [(1, 2), (1, 2), (3, 2)] i) = 3 :=
  buildDf_degree_sum [(1, 2), (1, 2), (3, 2)] none none [(1, 2), (1, 2), (3, 2)] rfl

/-- C6 fails when one identifier occurs in both columns: on the dataframe
`[(0,0)]` networkx merges the user node `0` and the item node `0`, so the
built graph has one node while the claim predicts `1 + 1 = 2`. -/
theorem nodesOf_card_counterexample :
    buildDf [(0, 0)] none none = Except.ok [(0, 0)] ∧
      (nodesOf [(0, 0)]).card = 1 ∧
      (usersOf [(0, 0)]).card + (itemsOf [(0, 0)]).card = 2 :=
  ⟨rfl, by decide, by decide⟩

/-- C6 (amended): when no identifier occurs on both sides of the filtered
dataframe, the number of nodes of the built graph equals the number of
distinct users plus the number of distinct items. -/
theorem nodesOf_card_eq (df : List (Nat × Nat)) (minUser minItem : Option Int)
    (out : List (Nat × Nat)) (_hbuild : buildDf df minUser minItem = Except.ok out)
    (hdisj : Disjoint (usersOf out) (itemsOf out)) :
    (nodesOf out).card = (usersOf out).card + (itemsOf out).card :=
  Finset.card_union_of_disjoint hdisj

/-- Witness for C6's amended theorem on the dataframe `[(1,2)]`. -/
theorem nodesOf_card_eq_witness :
    (nodesOf [(1, 2)]).card = (usersOf [(1, 2)]).card + (itemsOf [(1, 2)]).card :=
  nodesOf_card_eq [(1, 2)] none none [(1, 2)] rfl (by decide)

/-- Keys of a Python `Counter` (or `dict`) in insertion order: the distinct
values of the list in order of first occurrence.  `seen` accumulates the
values already emitted. -/
def uniqKeysAux {α : Type} [DecidableEq α] (seen : List α) : List α → List α
  | [] => []
  | a :: l => if a ∈ seen then uniqKeysAux seen l else a :: uniqKeysAux (a :: seen) l

/-- Distinct values of a list in order of first occurrence. -/
def uniqKeys {α : Type} [DecidableEq α] (l : List α) : List α :=
  uniqKeysAux [] l

/-- Membership in `uniqKeysAux`. -/
theorem mem_uniqKeysAux {α : Type} [DecidableEq α] (l : List α) :
    ∀ (seen : List α) (x : α), x ∈ uniqKeysAux seen l ↔ x ∈ l ∧ x ∉ seen := by
  induction l with
  | nil => intro seen x; simp [uniqKeysAux]
  | cons a l ih =>
    intro seen x
    by_cases ha : a ∈ seen
    · rw [uniqKeysAux, if_pos ha, ih]
      constructor
      · rintro ⟨h1, h2⟩
        exact ⟨List.mem_cons_of_mem a h1, h2⟩
      · rintro ⟨h1, h2⟩
        rcases List.mem_cons.1 h1 with rfl | h1
        · exact absurd ha h2
        · exact ⟨h1, h2⟩
    · rw [uniqKeysAux, if_neg ha]
      by_cases hxa : x = a
      · subst hxa
        simp [ha]
      · rw [List.mem_cons]
        simp only [hxa, false_or, ih (x :: seen) x]
        rw [ih (a :: seen) x]
        simp [hxa]

/-- Membership in `uniqKeys` agrees with membership in the list. -/
theorem mem_uniqKeys {α : Type} [DecidableEq α] (l : List α) (x : α) :
    x ∈ uniqKeys l ↔ x ∈ l := by
  rw [uniqKeys, mem_uniqKeysAux]
  simp

/-- The keys emitted by `uniqKeysAux` are distinct. -/
theorem nodup_uniqKeysAux {α : Type} [DecidableEq α] (l : List α) :
    ∀ seen : List α, (uniqKeysAux seen l).Nodup := by
  induction l with
  | nil => intro seen; simp [uniqKeysAux]
  | cons a l ih =>
    intro seen
    by_cases ha : a ∈ seen
    · rw [uniqKeysAux, if_pos ha]
      exact ih seen
    · rw [uniqKeysAux, if_neg ha]
      refine List.nodup_cons.2 ⟨?_, ih (a :: seen)⟩
      intro hmem
      have := (mem_uniqKeysAux l (a :: seen) a).1 hmem
      exact this.2 (List.mem_cons_self a seen)

/-- The keys of `uniqKeys` are distinct. -/
theorem nodup_uniqKeys {α : Type} [DecidableEq α] (l : List α) :
    (uniqKeys l).Nodup :=
  nodup_uniqKeysAux l []

/-- Filtering a duplicate-free list for one key yields that key alone or
nothing. -/
theorem filter_key_of_nodup {α : Type} [DecidableEq α] (l : List α)
    (hnd : l.Nodup) (a : α) :
    l.filter (fun x => decide (x = a)) = if a ∈ l then [a] else [] := by
  induction l with
  | nil => simp
  | cons x l ih =>
    rcases List.nodup_cons.1 hnd with ⟨hx, hl⟩
    by_cases hxa : x = a
    · subst hxa
      have hempty : l.filter (fun y => decide (y = x)) = [] :=
        List.filter_eq_nil_iff.2 (fun y hy => by
          simp only [decide_eq_true_eq]
          rintro rfl
          exact hx hy)
      simp [List.filter_cons, hempty]
    · have hax : ¬ a = x := fun h => hxa h.symm
      simp only [List.filter_cons, hxa, decide_eq_true_eq, if_false, List.mem_cons,
        hax, false_or]
      rw [ih hl]

/-- Multiplicity of a `(user, item)` row in the dataframe. -/
def pairCount (df : List (Nat × Nat)) (p : Nat × Nat) : Nat :=
  df.count p

/-- Model of `Counter(list(zip(df[user_key], df[item_key])))` in step 4 of
`__init__`: the distinct rows in first-occurrence order, each paired with
its multiplicity. -/
def counter (df : List (Nat × Nat)) : List ((Nat × Nat) × Nat) :=
  (uniqKeys df).map (fun p => (p, pairCount df p))

/-- Test of whether a weighted-edge entry `((u,i),w)` produced from the
`Counter` touches the undirected networkx edge `{a,b}`. -/
def matchEdge (a b : Nat) (e : (Nat × Nat) × Nat) : Bool :=
  (e.1.1 == a && e.1.2 == b) || (e.1.1 == b && e.1.2 == a)

/-- Weight that `G.add_weighted_edges_from(edge_list)` leaves on the
undirected edge `{a,b}` of the networkx graph: the weight of the last
entry of the `Counter`-derived edge list touching that edge (networkx
overwrites the attributes of an existing edge), or `none` when the edge is
absent. -/
def gWeight (df : List (Nat × Nat)) (a b : Nat) : Option Nat :=
  (((counter df).filter (matchEdge a b)).getLast?).map Prod.snd

/-- Characterization of `matchEdge` as equality with one of the two
orientations of the edge. -/
theorem matchEdge_iff (a b : Nat) (e : (Nat × Nat) × Nat) :
    matchEdge a b e = true ↔ e.1 = (a, b) ∨ e.1 = (b, a) := by
  simp [matchEdge, Prod.ext_iff]

/-- Pair membership puts the components in the two column value sets. -/
theorem mem_sides_of_mem (df : List (Nat × Nat)) (a b : Nat)
    (h : (a, b) ∈ df) : a ∈ usersOf df ∧ b ∈ itemsOf df := by
  constructor
  · rw [usersOf, List.mem_toFinset, List.mem_map]
    exact ⟨(a, b), h, rfl⟩
  · rw [itemsOf, List.mem_toFinset, List.mem_map]
    exact ⟨(a, b), h, rfl⟩

/-- With disjoint sides, the edge entries touching `{a,b}` for an item `b`
are exactly the entry keyed `(a,b)`, present iff the pair occurs. -/
theorem counter_filter_match (df : List (Nat × Nat))
    (hdisj : Disjoint (usersOf df) (itemsOf df)) (a b : Nat)
    (hb : b ∈ itemsOf df) :
    (counter df).filter (matchEdge a b) =
      if (a, b) ∈ df then [((a, b), pairCount df (a, b))] else [] := by
  rw [counter, List.filter_map]
  have hcongr : ∀ k ∈ uniqKeys df,
      (matchEdge a b ∘ (fun p => (p, pairCount df p))) k = decide (k = (a, b)) := by
    intro k hk
    by_cases hkey : k = (a, b)
    · simp only [Function.comp_apply, hkey, decide_eq_true_eq]
      rw [(matchEdge_iff a b ((a, b), pairCount df (a, b))).2 (Or.inl rfl)]
      simp
    · have hkdf : k ∈ df := (mem_uniqKeys df k).1 hk
      have hba : k ≠ (b, a) := by
        rintro rfl
        have hbu : b ∈ usersOf df := (mem_sides_of_mem df b a hkdf).1
        exact (Finset.disjoint_left.1 hdisj hbu) hb
      have hfalse : ¬ matchEdge a b (k, pairCount df k) = true := by
        rw [matchEdge_iff]
        rintro (h | h)
        · exact hkey h
        · exact hba h
      simp only [Function.comp_apply, Bool.not_eq_true] at hfalse ⊢
      rw [hfalse]
      simp [hkey]
  rw [List.filter_congr hcongr, filter_key_of_nodup (uniqKeys df) (nodup_uniqKeys df) (a, b)]
  by_cases hab : (a, b) ∈ df
  · rw [if_pos ((mem_uniqKeys df (a, b)).2 hab), if_pos hab]
    rfl
  · rw [if_neg (fun h => hab ((mem_uniqKeys df (a, b)).1 h)), if_neg hab]
    rfl

/-- C7 (amended): with disjoint sides, for a user `a` and an item `b` the
built graph carries the single weighted edge `(a,b)` of weight equal to the
multiplicity of the pair in the filtered dataframe, and no edge when the
pair does not occur. -/
theorem buildDf_edge_weight (df : List (Nat × Nat)) (minUser minItem : Option Int)
    (out : List (Nat × Nat)) (_hbuild : buildDf df minUser minItem = Except.ok out)
    (hdisj : Disjoint (usersOf out) (itemsOf out)) (a b : Nat)
    (hb : b ∈ itemsOf out) :
    ((a, b) ∈ out → gWeight out a b = some (pairCount out (a, b))) ∧
      ((a, b) ∉ out → gWeight out a b = none) := by
  have h := counter_filter_match out hdisj a b hb
  constructor
  · intro hab
    rw [gWeight, h, if_pos hab]
    rfl
  · intro hab
    rw [gWeight, h, if_neg hab]
    rfl

/-- Witness for C7's amended theorem: the pair `(1,2)` occurs twice in
`[(1,2),(1,2),(3,2)]` and the built edge `{1,2}` carries weight 2. -/
theorem buildDf_edge_weight_witness :
    gWeight [(1, 2), (1, 2), (3, 2)] 1 2 = some 2 :=
  (buildDf_edge_weight [(1, 2), (1, 2), (3, 2)] none none [(1, 2), (1, 2), (3, 2)] rfl
    (by decide) 1 2 (by decide)).1 (by decide)

/-- C7 fails when an identifier occurs on both sides: in
`[(1,2),(1,2),(2,1)]` the pair `(1,2)` appears twice, but
`add_weighted_edges_from` later processes the pair `(2,1)`, which is the
same undirected networkx edge `{1,2}`, and overwrites its weight with 1. -/
theorem gWeight_counterexample :
    buildDf [(1, 2), (1, 2), (2, 1)] none none = Except.ok [(1, 2), (1, 2), (2, 1)] ∧
      pairCount [(1, 2), (1, 2), (2, 1)] (1, 2) = 2 ∧
      gWeight [(1, 2), (1, 2), (2, 1)] 1 2 = some 1 :=
  ⟨rfl, by decide, by decide⟩

end CommunityGraph

namespace CommunityGraph

/-- Adjacency in the built networkx graph: the undirected edge `{x,y}` is
present iff some row of the filtered dataframe carries it in either
orientation. -/
def adjacent (df : List (Nat × Nat)) (x y : Nat) : Prop :=
  (x, y) ∈ df ∨ (y, x) ∈ df

instance adjacentDecidable (df : List (Nat × Nat)) (x y : Nat) :
    Decidable (adjacent df x y) :=
  inferInstanceAs (Decidable ((x, y) ∈ df ∨ (y, x) ∈ df))

/-- Neighborhood `B[x]` of a node in the built networkx graph. -/
def nbrsG (df : List (Nat × Nat)) (x : Nat) : Finset Nat :=
  (nodesOf df).filter (fun y => adjacent df x y)

/-- Second neighborhood computed by `bipartite.weighted_projected_graph`:
`nbrs2 = {n for nbr in unbrs for n in B[nbr]} - {u}`. -/
def nbrs2 (df : List (Nat × Nat)) (u : Nat) : Finset Nat :=
  ((nbrsG df u).biUnion (fun y => nbrsG df y)).erase u

/-- Edge relation of `weighted_projected_graph(B, targets)`: the loop adds
the undirected edge `(u,v)` for every `u` in `targets` and `v` in `nbrs2`
of `u`, so an edge is present iff one of its endpoints was processed as
`u` and the other showed up in its second neighborhood. -/
def projEdge (df : List (Nat × Nat)) (targets : Finset Nat) (u v : Nat) : Prop :=
  (u ∈ targets ∧ v ∈ nbrs2 df u) ∨ (v ∈ targets ∧ u ∈ nbrs2 df v)

instance projEdgeDecidable (df : List (Nat × Nat)) (targets : Finset Nat)
    (u v : Nat) : Decidable (projEdge df targets u v) :=
  inferInstanceAs
    (Decidable ((u ∈ targets ∧ v ∈ nbrs2 df u) ∨ (v ∈ targets ∧ u ∈ nbrs2 df v)))

/-- Weight the projection writes on the edge `{u,v}`:
`len(common)` for `common = set(B[u]) & set(B[v])`. -/
def projWeight (df : List (Nat × Nat)) (u v : Nat) : Nat :=
  ((nbrsG df u) ∩ (nbrsG df v)).card

/-- Node set of the projected graph: every target node is added by
`G.add_nodes_from`, and `G.add_edge` adds the far endpoints of the added
edges. -/
def projNodes (df : List (Nat × Nat)) (targets : Finset Nat) : Finset Nat :=
  targets ∪ targets.biUnion (fun u => nbrs2 df u)

/-- Opposite-side entities adjacent to both `u` and `v`: the spec's notion
of shared opposite-side neighbors, stated here for comparison with the
count the code's projection computes. -/
def sharedOpposite (df : List (Nat × Nat)) (O : Finset Nat) (u v : Nat) : Finset Nat :=
  O.filter (fun o => o ∈ nbrsG df u ∧ o ∈ nbrsG df v)

/-- An endpoint of a present edge is a node of the graph. -/
theorem adjacent_mem_left (df : List (Nat × Nat)) (x y : Nat)
    (h : adjacent df x y) : x ∈ nodesOf df := by
  rcases h with h | h
  · exact Finset.mem_union_left _ (mem_sides_of_mem df x y h).1
  · exact Finset.mem_union_right _ (mem_sides_of_mem df y x h).2

/-- Neighborhood membership is symmetric. -/
theorem nbrsG_symm (df : List (Nat × Nat)) (x y : Nat) :
    y ∈ nbrsG df x ↔ x ∈ nbrsG df y := by
  rw [nbrsG, nbrsG, Finset.mem_filter, Finset.mem_filter]
  constructor
  · rintro ⟨-, hadj⟩
    exact ⟨adjacent_mem_left df x y hadj, Or.symm hadj⟩
  · rintro ⟨-, hadj⟩
    exact ⟨adjacent_mem_left df y x hadj, Or.symm hadj⟩

/-- A node outside the user column is only adjacent to user-column nodes. -/
theorem nbrsG_subset_users (df : List (Nat × Nat)) (x : Nat)
    (hx : x ∉ usersOf df) : nbrsG df x ⊆ usersOf df := by
  intro y hy
  rcases Finset.mem_filter.1 hy with ⟨-, hadj⟩
  rcases hadj with h | h
  · exact absurd (mem_sides_of_mem df x y h).1 hx
  · exact (mem_sides_of_mem df y x h).1

/-- A node outside the item column is only adjacent to item-column nodes. -/
theorem nbrsG_subset_items (df : List (Nat × Nat)) (x : Nat)
    (hx : x ∉ itemsOf df) : nbrsG df x ⊆ itemsOf df := by
  intro y hy
  rcases Finset.mem_filter.1 hy with ⟨-, hadj⟩
  rcases hadj with h | h
  · exact (mem_sides_of_mem df x y h).2
  · exact absurd (mem_sides_of_mem df y x h).2 hx

/-- C3 (amended): for every built graph whose filtered dataframe has
disjoint sides and for either target side, two distinct target-side nodes
are connected in the one-mode projection iff they share an opposite-side
neighbor, the written weight is the number of shared opposite-side
neighbors, every target-side node is a node of the projection, and a
target-side node sharing a neighbor with nobody is isolated. -/
theorem projection_spec (df : List (Nat × Nat)) (minUser minItem : Option Int)
    (out : List (Nat × Nat)) (_hbuild : buildDf df minUser minItem = Except.ok out)
    (hdisj : Disjoint (usersOf out) (itemsOf out)) (T O : Finset Nat)
    (hside : T = itemsOf out ∧ O = usersOf out ∨ T = usersOf out ∧ O = itemsOf out) :
    (∀ u ∈ T, ∀ v ∈ T, u ≠ v →
        (projEdge out T u v ↔ (sharedOpposite out O u v).Nonempty)) ∧
      (∀ u ∈ T, ∀ v ∈ T, u ≠ v →
        projWeight out u v = (sharedOpposite out O u v).card) ∧
      T ⊆ projNodes out T ∧
      ∀ u ∈ T, (∀ v, v ≠ u → sharedOpposite out O u v = ∅) →
        ∀ v, ¬ projEdge out T u v := by
  have hT : ∀ u ∈ T, nbrsG out u ⊆ O := by
    rcases hside with ⟨hT', hO'⟩ | ⟨hT', hO'⟩
    · intro u hu
      rw [hO']
      exact nbrsG_subset_users out u (Finset.disjoint_right.1 hdisj (hT' ▸ hu))
    · intro u hu
      rw [hO']
      exact nbrsG_subset_items out u (Finset.disjoint_left.1 hdisj (hT' ▸ hu))
  have hshared : ∀ u ∈ T, ∀ v : Nat,
      sharedOpposite out O u v = nbrsG out u ∩ nbrsG out v := by
    intro u hu v
    ext x
    simp only [sharedOpposite, Finset.mem_filter, Finset.mem_inter]
    constructor
    · rintro ⟨-, hx1, hx2⟩
      exact ⟨hx1, hx2⟩
    · rintro ⟨hx1, hx2⟩
      exact ⟨hT u hu hx1, hx1, hx2⟩
  have hmem2 : ∀ u v : Nat, v ∈ nbrs2 out u ↔
      v ≠ u ∧ ∃ y, y ∈ nbrsG out u ∧ y ∈ nbrsG out v := by
    intro u v
    rw [nbrs2, Finset.mem_erase, Finset.mem_biUnion]
    constructor
    · rintro ⟨hne, y, hy1, hy2⟩
      exact ⟨hne, y, hy1, (nbrsG_symm out y v).1 hy2⟩
    · rintro ⟨hne, y, hy1, hy2⟩
      exact ⟨hne, y, hy1, (nbrsG_symm out y v).2 hy2⟩
  refine ⟨?_, ?_, Finset.subset_union_left, ?_⟩
  · intro u hu v hv hne
    rw [hshared u hu v]
    constructor
    · rintro (⟨-, hv2⟩ | ⟨-, hu2⟩)
      · rcases (hmem2 u v).1 hv2 with ⟨-, y, hy1, hy2⟩
        exact ⟨y, Finset.mem_inter.2 ⟨hy1, hy2⟩⟩
      · rcases (hmem2 v u).1 hu2 with ⟨-, y, hy1, hy2⟩
        exact ⟨y, Finset.mem_inter.2 ⟨hy2, hy1⟩⟩
    · rintro ⟨y, hy⟩
      rcases Finset.mem_inter.1 hy with ⟨hy1, hy2⟩
      exact Or.inl ⟨hu, (hmem2 u v).2 ⟨hne.symm, y, hy1, hy2⟩⟩
  · intro u hu v hv hne
    rw [hshared u hu v]
    rfl
  · intro u hu hno v hpe
    rcases hpe with ⟨-, hv2⟩ | ⟨hvT, hu2⟩
    · rcases (hmem2 u v).1 hv2 with ⟨hne, y, hy1, hy2⟩
      have hyS : y ∈ sharedOpposite out O u v :=
        Finset.mem_filter.2 ⟨hT u hu hy1, hy1, hy2⟩
      rw [hno v hne] at hyS
      exact Finset.not_mem_empty y hyS
    · rcases (hmem2 v u).1 hu2 with ⟨hne, y, hy1, hy2⟩
      have hyS : y ∈ sharedOpposite out O u v :=
        Finset.mem_filter.2 ⟨hT u hu hy2, hy2, hy1⟩
      rw [hno v (fun h => hne h.symm)] at hyS
      exact Finset.not_mem_empty y hyS

/-- Witness for C3's amended theorem: in `[(1,10),(2,10)]` users `1` and
`2` share the item `10`, so the user-side projection connects them iff the
shared-neighbor set is nonempty. -/
theorem projection_spec_witness :
    projEdge [(1, 10), (2, 10)] (usersOf [(1, 10), (2, 10)]) 1 2 ↔
      (sharedOpposite [(1, 10), (2, 10)] (itemsOf [(1, 10), (2, 10)]) 1 2).Nonempty :=
  (projection_spec [(1, 10), (2, 10)] none none [(1, 10), (2, 10)] rfl (by decide)
    (usersOf [(1, 10), (2, 10)]) (itemsOf [(1, 10), (2, 10)])
    (Or.inr ⟨rfl, rfl⟩)).1 1 (by decide) 2 (by decide) (by decide)

/-- C3 fails without disjoint sides: in `[(2,9),(7,9),(1,2),(1,7)]` the
identifiers `2` and `7` occur in both columns.  Projecting onto the item
side, the items `2` and `7` get an edge of weight `2` because their common
networkx neighbors are `1` and `9`, yet only user `1` is a shared
opposite-side neighbor, so the claimed weight semantics (count of shared
opposite-side neighbors) gives `1`. -/
theorem projection_counterexample :
    buildDf [(2, 9), (7, 9), (1, 2), (1, 7)] none none =
        Except.ok [(2, 9), (7, 9), (1, 2), (1, 7)] ∧
      (2 : Nat) ∈ itemsOf [(2, 9), (7, 9), (1, 2), (1, 7)] ∧
      (7 : Nat) ∈ itemsOf [(2, 9), (7, 9), (1, 2), (1, 7)] ∧
      projEdge [(2, 9), (7, 9), (1, 2), (1, 7)]
        (itemsOf [(2, 9), (7, 9), (1, 2), (1, 7)]) 2 7 ∧
      projWeight [(2, 9), (7, 9), (1, 2), (1, 7)] 2 7 = 2 ∧
      (sharedOpposite [(2, 9), (7, 9), (1, 2), (1, 7)]
        (usersOf [(2, 9), (7, 9), (1, 2), (1, 7)]) 2 7).card = 1 :=
  ⟨rfl, by decide, by decide, by decide, by decide, by decide⟩

end CommunityGraph

namespace CommunityGraph

/-- Python dict assignment `data[k] = v`: replaces the value of an
existing key in place, else appends the new entry. -/
def dictInsert {κ β : Type} [DecidableEq κ] (data : List (κ × β)) (k : κ) (v : β) :
    List (κ × β) :=
  if k ∈ data.map Prod.fst then
    data.map (fun e => if e.1 = k then (k, v) else e)
  else
    data ++ [(k, v)]

/-- Model of `optimize_modularity` in `util.py`: the outer loop over the
`min_item_degree` thresholds, the inner loop over the resolutions, and the
dict write `data[(min_deg, res)] = curr_mod`.  The value computed at a
grid point (build the community with that item threshold, project, run
`community_louvain.best_partition` at that resolution, score with
`modularity`) is abstracted as the function `score` of the grid point,
since the external stochastic louvain library is not part of this
repository.  Resolutions (Python floats) are modelled as rationals. -/
def optimize_modularity {β : Type} (score : Int → Rat → β)
    (minItemDegree : List Int) (resolution : List Rat) : List ((Int × Rat) × β) :=
  minItemDegree.foldl
    (fun data minDeg =>
      resolution.foldl (fun d res => dictInsert d (minDeg, res) (score minDeg res)) data)
    []

/-- Inserting a fresh key appends. -/
theorem dictInsert_fresh {κ β : Type} [DecidableEq κ] (data : List (κ × β))
    (k : κ) (v : β) (h : k ∉ data.map Prod.fst) :
    dictInsert data k v = data ++ [(k, v)] := by
  rw [dictInsert, if_neg h]

/-- The inner resolution loop with keys fresh for the accumulator appends
one entry per resolution. -/
theorem inner_foldl_eq {β : Type} (score : Int → Rat → β) (t : Int) :
    ∀ R : List Rat, R.Nodup →
      ∀ data : List ((Int × Rat) × β),
        (∀ r ∈ R, (t, r) ∉ data.map Prod.fst) →
        R.foldl (fun d res => dictInsert d (t, res) (score t res)) data =
          data ++ R.map (fun r => ((t, r), score t r)) := by
  intro R
  induction R with
  | nil =>
    intro _ data _
    simp
  | cons r R ih =>
    intro hnd data hfresh
    rcases List.nodup_cons.1 hnd with ⟨hr, hR⟩
    rw [List.foldl_cons, dictInsert_fresh data (t, r) (score t r)
      (hfresh r (List.mem_cons_self r R))]
    rw [ih hR (data ++ [((t, r), score t r)]) ?_]
    · simp
    · intro r' hr'
      rw [List.map_append, List.mem_append]
      rintro (hmem | hmem)
      · exact hfresh r' (List.mem_cons_of_mem r hr') hmem
      · simp only [List.map_cons, List.map_nil, List.mem_singleton, Prod.mk.injEq] at hmem
        exact hr (hmem.2 ▸ hr')

/-- The whole grid loop with duplicate-free axes appends one entry per
grid point, in order. -/
theorem optimize_foldl_eq {β : Type} (score : Int → Rat → β) :
    ∀ T : List Int, T.Nodup → ∀ R : List Rat, R.Nodup →
      ∀ data : List ((Int × Rat) × β),
        (∀ t ∈ T, ∀ r : Rat, (t, r) ∉ data.map Prod.fst) →
        T.foldl (fun d t => R.foldl (fun d res => dictInsert d (t, res) (score t res)) d)
            data =
          data ++ T.flatMap (fun t => R.map (fun r => ((t, r), score t r))) := by
  intro T
  induction T with
  | nil =>
    intro _ R _ data _
    simp
  | cons t T ih =>
    intro hnd R hR data hfresh
    rcases List.nodup_cons.1 hnd with ⟨ht, hT⟩
    rw [List.foldl_cons,
      inner_foldl_eq score t R hR data (fun r hr => hfresh t (List.mem_cons_self t T) r)]
    rw [ih hT R hR (data ++ R.map (fun r => ((t, r), score t r))) ?_]
    · simp
    · intro t' ht' r
      rw [List.map_append, List.mem_append]
      rintro (hmem | hmem)
      · exact hfresh t' (List.mem_cons_of_mem t ht') r hmem
      · rw [List.map_map] at hmem
        rcases List.mem_map.1 hmem with ⟨r'', -, hr''⟩
        have : t = t' := congrArg Prod.fst hr''
        exact ht (this ▸ ht')

/-- Length of the flattened grid. -/
theorem length_grid {β : Type} (score : Int → Rat → β) (R : List Rat) :
    ∀ T : List Int,
      (T.flatMap (fun t => R.map (fun r => ((t, r), score t r)))).length =
        T.length * R.length := by
  intro T
  induction T with
  | nil => simp
  | cons t T ih =>
    rw [List.flatMap_cons, List.length_append, ih, List.length_map,
      List.length_cons, Nat.succ_mul, Nat.add_comm]

/-- The keys of the flattened grid are distinct when both axes are. -/
theorem nodup_grid_keys (R : List Rat) (hR : R.Nodup) :
    ∀ T : List Int, T.Nodup →
      (T.flatMap (fun t => R.map (fun r => ((t, r) : Int × Rat)))).Nodup := by
  intro T
  induction T with
  | nil =>
    intro _
    simp
  | cons t T ih =>
    intro hnd
    rcases List.nodup_cons.1 hnd with ⟨ht, hT⟩
    rw [List.flatMap_cons]
    rw [List.nodup_append]
    refine ⟨List.Nodup.map (fun r r' h => congrArg Prod.snd h) hR, ih hT, ?_⟩
    intro x hx hx'
    rcases List.mem_map.1 hx with ⟨r, -, rfl⟩
    rcases List.mem_flatMap.1 hx' with ⟨t', ht', hmem⟩
    rcases List.mem_map.1 hmem with ⟨r', -, heq⟩
    have : t' = t := congrArg Prod.fst heq
    exact ht (this ▸ ht')

/-- C9 (amended): for duplicate-free threshold and resolution sequences,
the grid search returns one entry per pair of the Cartesian product:
`|T| * |R|` entries with distinct keys, every entry is a grid pair carrying
its score, and every grid pair occurs. -/
theorem optimize_modularity_grid {β : Type} (score : Int → Rat → β)
    (T : List Int) (R : List Rat) (hT : T.Nodup) (hR : R.Nodup) :
    (optimize_modularity score T R).length = T.length * R.length ∧
      (∀ e ∈ optimize_modularity score T R,
        e.1.1 ∈ T ∧ e.1.2 ∈ R ∧ e.2 = score e.1.1 e.1.2) ∧
      (∀ t ∈ T, ∀ r ∈ R, ((t, r), score t r) ∈ optimize_modularity score T R) ∧
      ((optimize_modularity score T R).map Prod.fst).Nodup := by
  have hclosed : optimize_modularity score T R =
      T.flatMap (fun t => R.map (fun r => ((t, r), score t r))) := by
    have h := optimize_foldl_eq score T hT R hR [] (by simp)
    rw [optimize_modularity, h]
    rfl
  refine ⟨?_, ?_, ?_, ?_⟩
  · rw [hclosed, length_grid]
  · intro e he
    rw [hclosed] at he
    rcases List.mem_flatMap.1 he with ⟨t, ht, hmem⟩
    rcases List.mem_map.1 hmem with ⟨r, hr, rfl⟩
    exact ⟨ht, hr, rfl⟩
  · intro t ht r hr
    rw [hclosed]
    exact List.mem_flatMap.2 ⟨t, ht, List.mem_map.2 ⟨r, hr, rfl⟩⟩
  · rw [hclosed, List.map_flatMap]
    have : (fun t => (R.map (fun r => ((t, r), score t r))).map Prod.fst) =
        fun t => R.map (fun r => ((t, r) : Int × Rat)) := by
      funext t
      rw [List.map_map]
      rfl
    rw [this]
    exact nodup_grid_keys R hR T hT

/-- Witness for C9's amended theorem on the grid `[1,2] x [1]`. -/
theorem optimize_modularity_grid_witness :
    (optimize_modularity (fun _ _ => (0 : Int)) [1, 2] [1]).length =
      [1, 2].length * [(1 : Rat)].length :=
  (optimize_modularity_grid (fun _ _ => (0 : Int)) [1, 2] [1]
    (by decide) (by decide)).1

/-- C9 fails for sequences with repeated values: `data` is a Python dict,
so the two sweeps of threshold `2` write the same key `(2, 1.0)` and the
mapping ends with a single entry, not `|T| * |R| = 2`. -/
theorem optimize_modularity_counterexample :
    (optimize_modularity (fun _ _ => (0 : Int)) [2, 2] [1]).length = 1 ∧
      [2, 2].length * [(1 : Rat)].length = 2 :=
  ⟨by decide, rfl⟩

end CommunityGraph
